import Mathlib

/-!
Verification of the scope-aware template token extractor and of two
`Server` methods of the ember-language-server repository.

The extractor (`extractTokensFromTemplate`) is exercised by
`test/utils/template-tokens-collector-test.ts`; its own module is not part of
the provided sources, so its data model, scope tracker, path classifier and
AST walker are modelled from the specification (sections 3, 4, 6 and 7).
`Server.addToRegistry` and `Server.onDocumentSymbol` are embedded directly
from `src/server.ts`.
-/

/-- Modelled from the spec: a `Scope` is an ordered stack of frames, innermost
first; each frame is the set (here: list) of names bound by one block body's
`as |name ...|` parameter list. -/
abbrev Scope := List (List String)

/-- Modelled from the spec: `isBound(headSegment)` is true if the head segment
exactly (case-sensitively, with no normalization) matches a name in any frame
of the scope stack. -/
def isBound (scope : Scope) (headSegment : String) : Bool :=
  scope.any (fun frame => frame.contains headSegment)

/-- Modelled from the spec: the syntactic context a raw path appeared in —
either an angle-bracket tag name, or a curly path (mustache path, block path,
sub-expression path, or modifier path). -/
inductive Context where
  | tagName : Context
  | curlyPath : Context
deriving DecidableEq

/-- Modelled from the spec: result of classifying one raw path. -/
inductive Classification where
  | skip : Classification
  | component (normalizedPath : String) : Classification
  | invocable (normalizedPath : String) : Classification
deriving DecidableEq

/-- Modelled from the spec: whether a raw path denotes a caller-supplied
argument, i.e. begins with `@`. -/
def isArgPath (rawPath : String) : Bool :=
  match rawPath.data with
  | [] => false
  | c :: _ => c == '@'

/-- Modelled from the spec: whether the first character of a raw path is
lowercase (an ordinary markup element in tag-name context). -/
def firstCharLower (rawPath : String) : Bool :=
  match rawPath.data with
  | [] => false
  | c :: _ => c.isLower

/-- Characters of a curly path up to (excluding) the first `.` or `/`
separator. -/
def takeUntilSep : List Char → List Char
  | [] => []
  | c :: rest => if c = '.' ∨ c = '/' then [] else c :: takeUntilSep rest

/-- Split a character sequence on each `::` separator, left to right. -/
def splitOnColons : List Char → List (List Char)
  | [] => [[]]
  | ':' :: ':' :: rest => [] :: splitOnColons rest
  | c :: rest =>
    match splitOnColons rest with
    | seg :: segs => (c :: seg) :: segs
    | [] => [[c]]

/-- Modelled from the spec: the head segment of a raw path — the portion
before the first `.` or `/` for curly paths, and the first `::`-separated
segment for angle-bracket tag paths. -/
def headSegment : Context → String → String
  | .curlyPath, p => String.mk (takeUntilSep p.data)
  | .tagName, p => String.mk ((splitOnColons p.data).headD [])

/-- Dasherize the tail of a segment: insert a hyphen before each uppercase
letter, then lowercase every character. -/
def dasherizeAux : List Char → List Char
  | [] => []
  | c :: rest =>
    if c.isUpper then '-' :: c.toLower :: dasherizeAux rest
    else c.toLower :: dasherizeAux rest

/-- Dasherize one segment's characters: the first character is only
lowercased; after it, a hyphen is inserted before each uppercase letter and
every character is lowercased. -/
def dasherizeSeg : List Char → List Char
  | [] => []
  | c :: rest => c.toLower :: dasherizeAux rest

/-- Modelled from the spec: dasherize one segment — insert a hyphen before
each uppercase letter that is not the first character of the segment, then
lowercase. -/
def dasherize (s : String) : String :=
  String.mk (dasherizeSeg s.data)

/-- Join character segments with a `/` between consecutive segments. -/
def joinSlash : List (List Char) → List Char
  | [] => []
  | [s] => s
  | s :: rest => s ++ '/' :: joinSlash rest

/-- Modelled from the spec: normalization of an angle-bracket tag path —
split on `::`, dasherize each segment independently, join with `/`. -/
def normalizeAngleTagPath (rawPath : String) : String :=
  String.mk (joinSlash ((splitOnColons rawPath.data).map dasherizeSeg))

/-- Modelled from the spec: the path classifier. Rules in order: a path
beginning with `@` is skipped in any context; a path whose head segment is
bound in the scope stack is skipped; in tag-name context a path whose first
character is lowercase is skipped and any other path is a component with the
dasherized normalization; in curly context the path is an invocable emitted
unchanged. -/
def classify (scope : Scope) (ctx : Context) (rawPath : String) : Classification :=
  if isArgPath rawPath then .skip
  else if isBound scope (headSegment ctx rawPath) then .skip
  else
    match ctx with
    | .tagName =>
      if firstCharLower rawPath then .skip
      else .component (normalizeAngleTagPath rawPath)
    | .curlyPath => .invocable rawPath

mutual

/-- Modelled from the spec: the node tree produced by the external template
parser. An element's modifiers are invocation nodes (path, params, hash),
represented as `mustache` nodes since the walker treats both identically.
A block's `inverse` is represented by its `inverseParams`/`inverseBody`
fields, an absent inverse being the empty params and empty body (which push
no frame and emit nothing, indistinguishable from absence in every
observable of the walk). String and number literal arguments carry no
identifier and are represented as `text` leaves. -/
inductive TemplateNode where
  | text : TemplateNode
  | comment : TemplateNode
  | element (tagPath : String) (attributes : AttrList) (modifiers : NodeList)
      (blockParams : List String) (children : NodeList) : TemplateNode
  | mustache (path : String) (params : NodeList) (hash : HashList) : TemplateNode
  | subexpr (path : String) (params : NodeList) (hash : HashList) : TemplateNode
  | block (path : String) (params : NodeList) (hash : HashList)
      (programParams : List String) (programBody : NodeList)
      (inverseParams : List String) (inverseBody : NodeList) : TemplateNode

/-- A list of template nodes (children, params, modifiers, bodies). -/
inductive NodeList where
  | nil : NodeList
  | cons (head : TemplateNode) (tail : NodeList) : NodeList

/-- An element's attribute list: each attribute has a key and a value
sub-tree (the mustache / sub-expression nodes appearing in the value). -/
inductive AttrList where
  | nil : AttrList
  | cons (key : String) (value : NodeList) (tail : AttrList) : AttrList

/-- An invocation's hash: ordered key/value pairs. -/
inductive HashList where
  | nil : HashList
  | cons (key : String) (value : TemplateNode) (tail : HashList) : HashList

end

/-- The token an element tag contributes: emitted only when classified as a
component. -/
def componentTokens : Classification → List String
  | .component s => [s]
  | _ => []

/-- The token a curly path contributes: emitted only when classified as an
invocable. -/
def invocableTokens : Classification → List String
  | .invocable s => [s]
  | _ => []

/-- Modelled from the spec: entering a block body pushes its declared
parameter names as a new innermost frame; a body declaring no parameters
pushes no frame. -/
def pushScope (names : List String) (scope : Scope) : Scope :=
  if names.isEmpty then scope else names :: scope

mutual

/-- Modelled from the spec: the AST walker on one node — pre-order,
document-order traversal. An element emits its tag's component token (if
any), then visits attributes, then modifiers, then its children under the
scope extended by its block parameters. A mustache / sub-expression emits
its invocable token (if any), then visits params, then hash values. A block
emits its invocable token (at most one for the whole block), visits params
and hash under the caller's scope, then its program body under the scope
extended by the program's block parameters, then its inverse body under the
scope extended by the inverse's block parameters. -/
def visitNode (scope : Scope) : TemplateNode → List String
  | .text => []
  | .comment => []
  | .element tagPath attrs mods bps children =>
    componentTokens (classify scope .tagName tagPath)
      ++ visitAttrs scope attrs
      ++ visitList scope mods
      ++ visitList (pushScope bps scope) children
  | .mustache p params hash =>
    invocableTokens (classify scope .curlyPath p)
      ++ visitList scope params ++ visitHash scope hash
  | .subexpr p params hash =>
    invocableTokens (classify scope .curlyPath p)
      ++ visitList scope params ++ visitHash scope hash
  | .block p params hash pps pbody ips ibody =>
    invocableTokens (classify scope .curlyPath p)
      ++ visitList scope params ++ visitHash scope hash
      ++ visitList (pushScope pps scope) pbody
      ++ visitList (pushScope ips scope) ibody
termination_by structural n => n

/-- Walk a list of sibling nodes in document order under one scope. -/
def visitList (scope : Scope) : NodeList → List String
  | .nil => []
  | .cons n rest => visitNode scope n ++ visitList scope rest
termination_by structural l => l

/-- Walk an attribute list: the key contributes no token; the value sub-tree
is visited under the current scope. -/
def visitAttrs (scope : Scope) : AttrList → List String
  | .nil => []
  | .cons _ v rest => visitList scope v ++ visitAttrs scope rest
termination_by structural l => l

/-- Walk a hash: each pair's value is visited in order under the current
scope. -/
def visitHash (scope : Scope) : HashList → List String
  | .nil => []
  | .cons _ v rest => visitNode scope v ++ visitHash scope rest
termination_by structural l => l

end

/-- Modelled from the spec: the token a node itself contributes (its own
candidate token, excluding every descendant's). -/
def ownTokens (scope : Scope) : TemplateNode → List String
  | .text => []
  | .comment => []
  | .element tagPath _ _ _ _ => componentTokens (classify scope .tagName tagPath)
  | .mustache p _ _ => invocableTokens (classify scope .curlyPath p)
  | .subexpr p _ _ => invocableTokens (classify scope .curlyPath p)
  | .block p _ _ _ _ _ _ => invocableTokens (classify scope .curlyPath p)

/-- The raw path of a node, when it has one. -/
def nodePath : TemplateNode → Option String
  | .text => none
  | .comment => none
  | .element tagPath _ _ _ _ => some tagPath
  | .mustache p _ _ => some p
  | .subexpr p _ _ => some p
  | .block p _ _ _ _ _ _ => some p

/-- Modelled from the spec: extraction over a parsed document — the walk of
the document's top-level nodes starting from the empty scope stack. -/
def extractTokens (ast : NodeList) : List String :=
  visitList [] ast

/-- Modelled from the spec: one event of the walk's scope-stack discipline —
a frame push on entering a block body with declared parameters, the matching
pop on leaving it, a node visit recording the stack depth at that node, and
a token emission. -/
inductive Ev where
  | push : Ev
  | pop : Ev
  | visit (depth : Nat) : Ev
  | emit (tok : String) : Ev
deriving DecidableEq

/-- Emission events for a node's own tokens. -/
def emitEvs (toks : List String) : List Ev :=
  toks.map Ev.emit

mutual

/-- Modelled from the spec: the walker instrumented with scope-stack events.
It performs exactly the traversal of `visitNode` — same order, same scope at
every node — recording a `visit` event (with the current stack depth) at
each node, an `emit` event for each token, and `push`/`pop` around each
block body that declares parameters. -/
def traceNode (scope : Scope) : TemplateNode → List Ev
  | .text => [.visit scope.length]
  | .comment => [.visit scope.length]
  | .element tagPath attrs mods bps children =>
    .visit scope.length
      :: (emitEvs (componentTokens (classify scope .tagName tagPath))
        ++ traceAttrs scope attrs
        ++ traceList scope mods
        ++ (if bps.isEmpty then traceList scope children
            else .push :: (traceList (bps :: scope) children ++ [.pop])))
  | .mustache p params hash =>
    .visit scope.length
      :: (emitEvs (invocableTokens (classify scope .curlyPath p))
        ++ traceList scope params ++ traceHash scope hash)
  | .subexpr p params hash =>
    .visit scope.length
      :: (emitEvs (invocableTokens (classify scope .curlyPath p))
        ++ traceList scope params ++ traceHash scope hash)
  | .block p params hash pps pbody ips ibody =>
    .visit scope.length
      :: (emitEvs (invocableTokens (classify scope .curlyPath p))
        ++ traceList scope params ++ traceHash scope hash
        ++ (if pps.isEmpty then traceList scope pbody
            else .push :: (traceList (pps :: scope) pbody ++ [.pop]))
        ++ (if ips.isEmpty then traceList scope ibody
            else .push :: (traceList (ips :: scope) ibody ++ [.pop])))
termination_by structural n => n

/-- Instrumented walk of sibling nodes. -/
def traceList (scope : Scope) : NodeList → List Ev
  | .nil => []
  | .cons n rest => traceNode scope n ++ traceList scope rest
termination_by structural l => l

/-- Instrumented walk of an attribute list. -/
def traceAttrs (scope : Scope) : AttrList → List Ev
  | .nil => []
  | .cons _ v rest => traceList scope v ++ traceAttrs scope rest
termination_by structural l => l

/-- Instrumented walk of a hash. -/
def traceHash (scope : Scope) : HashList → List Ev
  | .nil => []
  | .cons _ v rest => traceNode scope v ++ traceHash scope rest
termination_by structural l => l

end

/-- Run an event sequence against the scope-stack discipline from a given
starting depth: a push raises the depth by one, a pop lowers it — a pop at
depth zero (an unmatched pop) is a violation — and every visit event must
record exactly the current depth, the number of yet-unmatched pushes, i.e.
the number of block bodies with declared parameters enclosing that node.
Returns the final depth, or `none` on a violation. -/
def stepEvs : List Ev → Nat → Option Nat
  | [], d => some d
  | .push :: rest, d => stepEvs rest (d + 1)
  | .pop :: _, 0 => none
  | .pop :: rest, d + 1 => stepEvs rest d
  | .visit k :: rest, d => if k = d then stepEvs rest d else none
  | .emit _ :: rest, d => stepEvs rest d

/-- The tokens recorded in an event sequence, in order. -/
def tokensOfTrace : List Ev → List String
  | [] => []
  | .emit s :: rest => s :: tokensOfTrace rest
  | .push :: rest => tokensOfTrace rest
  | .pop :: rest => tokensOfTrace rest
  | .visit _ :: rest => tokensOfTrace rest

/-- Modelled from the spec: the error the upstream parser raises on
malformed input, carrying its position information. -/
structure TemplateSyntaxError where
  message : String
  line : Nat
  column : Nat
deriving DecidableEq

/-- Modelled from the spec: the full extraction pipeline at its boundary
with the external parser — if the parse failed, the parser's `SyntaxError`
is surfaced unchanged to the caller and no token list (partial or
otherwise) is produced; if it succeeded, the walk of the parsed document is
the result. -/
def extractTokensFromTemplate :
    Except TemplateSyntaxError NodeList → Except TemplateSyntaxError (List String)
  | .error e => .error e
  | .ok ast => .ok (extractTokens ast)

/-- Whether every node of a parsed document is a contentless leaf (text or
comment) — the parse of empty or whitespace-only input. -/
def allLeaves : NodeList → Bool
  | .nil => true
  | .cons n rest =>
    (match n with
      | .text => true
      | .comment => true
      | _ => false) && allLeaves rest

/-- AST of the template `<MyComponent />`. -/
def tplMyComponent : NodeList :=
  .cons (.element "MyComponent" .nil .nil [] .nil) .nil

/-- AST of the template `<MyComponent::Bar />`. -/
def tplMyComponentBar : NodeList :=
  .cons (.element "MyComponent::Bar" .nil .nil [] .nil) .nil

/-- AST of the template `<input {{autocomplete}} >`. -/
def tplInput : NodeList :=
  .cons (.element "input" .nil (.cons (.mustache "autocomplete" .nil .nil) .nil) [] .nil) .nil

/-- AST of the template `<MyComponent {{autocomplete}} />`. -/
def tplMyComponentModifier : NodeList :=
  .cons (.element "MyComponent" .nil (.cons (.mustache "autocomplete" .nil .nil) .nil) [] .nil) .nil

/-- AST of the template `{{#my-component/foo}} {{/my-component/foo}}`. -/
def tplCurlyBlock : NodeList :=
  .cons (.block "my-component/foo" .nil .nil [] (.cons .text .nil) [] .nil) .nil

/-- AST of the template `<MyComponent::Foo></MyComponent::Foo>`. -/
def tplAngleBlock : NodeList :=
  .cons (.element "MyComponent::Foo" .nil .nil [] .nil) .nil

/-- AST of the template
`{{#my-component/foo name=(format-name (to-uppercase "boo"))}} {{/my-component/foo}}`. -/
def tplComposition : NodeList :=
  .cons
    (.block "my-component/foo" .nil
      (.cons "name"
        (.subexpr "format-name"
          (.cons (.subexpr "to-uppercase" (.cons .text .nil) .nil) .nil) .nil)
        .nil)
      [] (.cons .text .nil) [] .nil)
    .nil

/-- AST of the template `<Foo as |Bar|><Bar /></Foo>`. -/
def tplAngleShadow : NodeList :=
  .cons (.element "Foo" .nil .nil ["Bar"] (.cons (.element "Bar" .nil .nil [] .nil) .nil)) .nil

/-- AST of the template `{{#foo-bar as |Bar|}}<Bar />{{/foo-bar}}`. -/
def tplCurlyShadow : NodeList :=
  .cons (.block "foo-bar" .nil .nil ["Bar"] (.cons (.element "Bar" .nil .nil [] .nil) .nil) [] .nil) .nil

/-- AST of the template `<Bar /><Foo as |Bar|><Bar /></Foo><Bar />` — the
name `Bar` appears before the shadowing block opens, inside its body, and
after it closes. -/
def tplShadowOutside : NodeList :=
  .cons (.element "Bar" .nil .nil [] .nil)
    (.cons (.element "Foo" .nil .nil ["Bar"] (.cons (.element "Bar" .nil .nil [] .nil) .nil))
      (.cons (.element "Bar" .nil .nil [] .nil) .nil))

/-- AST of the template `<@Foo />`. -/
def tplAtFoo : NodeList :=
  .cons (.element "@Foo" .nil .nil [] .nil) .nil

/-- The `fullPath` argument of `Server.addToRegistry`: a single path or a
list of paths (`string | string[]`). -/
inductive PathArg where
  | single (p : String) : PathArg
  | many (ps : List String) : PathArg
deriving DecidableEq

/-- `Array.isArray(fullPath) ? fullPath : [fullPath]` — the raw path list
`Server.addToRegistry` normalizes its argument to. -/
def rawPathsOf : PathArg → List String
  | .single p => [p]
  | .many ps => ps

/-- Node's POSIX `path.isAbsolute`: a path is absolute when it starts with
`/`. -/
def isAbsolute (p : String) : Bool :=
  match p.data with
  | [] => false
  | c :: _ => c == '/'

/-- One forwarded call to the underlying registry helper
(`addToRegistry(normalizedName, kind, purePaths)` from `utils/registry-api`,
external to this embedding): the name, kind and path list it was given. -/
structure RegistryCall where
  name : String
  kind : String
  paths : List String
deriving DecidableEq

/-- `Server.addToRegistry` from `src/server.ts`: normalize `fullPath` to a
list, keep only the absolute paths, and if any remain forward exactly those
to the underlying registry and return `true`; otherwise forward nothing and
return `false`. The second component records the forwarded call, `none`
meaning the underlying registry was not touched. -/
def serverAddToRegistry (normalizedName : String) (kind : String) (fullPath : PathArg) :
    Bool × Option RegistryCall :=
  let rawPaths := rawPathsOf fullPath
  let purePaths := rawPaths.filter isAbsolute
  if purePaths.length ≠ 0 then
    (true, some ⟨normalizedName, kind, purePaths⟩)
  else
    (false, none)

/-- Extension suffix starting at the last `.` of a basename that is not its
first character, `none` when there is no such dot. The flag marks whether
the current position is the first character of the basename. -/
def extFrom : List Char → Bool → Option (List Char)
  | [], _ => none
  | c :: rest, isFirst =>
    match extFrom rest false with
    | some e => some e
    | none => if c = '.' ∧ isFirst = false then some (c :: rest) else none

/-- The basename characters of a path: everything after the last `/`. -/
def afterLastSlash (l : List Char) : List Char :=
  l.foldl (fun acc c => if c = '/' then [] else acc ++ [c]) []

/-- Node's POSIX `path.extname`: the part of the path's basename from its
last `.` to the end; empty when the basename has no dot, or only a leading
dot. -/
def extname (p : String) : String :=
  match extFrom (afterLastSlash p.data) true with
  | some e => String.mk e
  | none => ""

/-- One entry of `Server.documentSymbolProviders`: the file extensions it
handles and its `process` function from file content to symbols. -/
structure DocSymbolProvider (σ : Type) where
  extensions : List String
  process : String → List σ

/-- `Server.onDocumentSymbol` from `src/server.ts`, with its collaborators
passed explicitly: `uriToFilePath` (the URI conversion), `readFileSync`
(the file system read) and the provider list. Returns the symbols together
with the list of file reads performed. A URI with no file path yields no
symbols and no read; so does a file whose extension no provider handles;
otherwise the file is read once and the matching providers' results are
concatenated in provider order. -/
def onDocumentSymbol (σ : Type) (uriToFilePath : String → Option String)
    (readFileSync : String → String) (documentSymbolProviders : List (DocSymbolProvider σ))
    (uri : String) : List σ × List String :=
  match uriToFilePath uri with
  | none => ([], [])
  | some filePath =>
    let extension := extname filePath
    let providers := documentSymbolProviders.filter
      (fun provider => provider.extensions.contains extension)
    if providers.length = 0 then ([], [])
    else
      let content := readFileSync filePath
      ((providers.map (fun provider => provider.process content)).foldl
        (fun a b => a ++ b) [], [filePath])

theorem stepEvs_append (a : List Ev) : ∀ (b : List Ev) (d : Nat),
    stepEvs (a ++ b) d = (stepEvs a d).bind (fun d2 => stepEvs b d2) := by
  induction a with
  | nil => intro b d; simp [stepEvs]
  | cons e rest ih =>
    intro b d
    cases e with
    | push => simp [stepEvs, ih]
    | pop =>
      cases d with
      | zero => simp [stepEvs]
      | succ d => simp [stepEvs, ih]
    | visit k =>
      by_cases h : k = d
      · simp [stepEvs, h, ih]
      · simp [stepEvs, h]
    | emit s => simp [stepEvs, ih]

theorem stepEvs_emitEvs (toks : List String) (d : Nat) :
    stepEvs (emitEvs toks) d = some d := by
  induction toks with
  | nil => simp [emitEvs, stepEvs]
  | cons t rest ih => simpa [emitEvs, stepEvs] using ih

theorem tokensOfTrace_append (a : List Ev) : ∀ b : List Ev,
    tokensOfTrace (a ++ b) = tokensOfTrace a ++ tokensOfTrace b := by
  induction a with
  | nil => intro b; simp [tokensOfTrace]
  | cons e rest ih =>
    intro b
    cases e <;> simp [tokensOfTrace, ih]

theorem tokensOfTrace_emitEvs (toks : List String) :
    tokensOfTrace (emitEvs toks) = toks := by
  induction toks with
  | nil => simp [emitEvs, tokensOfTrace]
  | cons t rest ih => simpa [emitEvs, tokensOfTrace] using ih

mutual

theorem traceNode_stepEvs (n : TemplateNode) : ∀ scope : Scope,
    stepEvs (traceNode scope n) scope.length = some scope.length := by
  cases n with
  | text => intro scope; simp [traceNode, stepEvs]
  | comment => intro scope; simp [traceNode, stepEvs]
  | element tagPath attrs mods bps children =>
    intro scope
    have h1 : stepEvs (traceList (bps :: scope) children) (scope.length + 1)
        = some (scope.length + 1) := by
      simpa using traceList_stepEvs children (bps :: scope)
    by_cases hb : bps.isEmpty <;>
      simp [traceNode, stepEvs, hb, stepEvs_append, stepEvs_emitEvs, Option.bind,
        traceAttrs_stepEvs attrs scope, traceList_stepEvs mods scope,
        traceList_stepEvs children scope, h1]
  | mustache p params hash =>
    intro scope
    simp [traceNode, stepEvs, stepEvs_append, stepEvs_emitEvs, Option.bind,
      traceList_stepEvs params scope, traceHash_stepEvs hash scope]
  | subexpr p params hash =>
    intro scope
    simp [traceNode, stepEvs, stepEvs_append, stepEvs_emitEvs, Option.bind,
      traceList_stepEvs params scope, traceHash_stepEvs hash scope]
  | block p params hash pps pbody ips ibody =>
    intro scope
    have h1 : stepEvs (traceList (pps :: scope) pbody) (scope.length + 1)
        = some (scope.length + 1) := by
      simpa using traceList_stepEvs pbody (pps :: scope)
    have h2 : stepEvs (traceList (ips :: scope) ibody) (scope.length + 1)
        = some (scope.length + 1) := by
      simpa using traceList_stepEvs ibody (ips :: scope)
    by_cases hp : pps.isEmpty <;> by_cases hi : ips.isEmpty <;>
      simp [traceNode, stepEvs, hp, hi, stepEvs_append, stepEvs_emitEvs, Option.bind,
        traceList_stepEvs params scope, traceHash_stepEvs hash scope,
        traceList_stepEvs pbody scope, h1,
        traceList_stepEvs ibody scope, h2]

theorem traceList_stepEvs (l : NodeList) : ∀ scope : Scope,
    stepEvs (traceList scope l) scope.length = some scope.length := by
  cases l with
  | nil => intro scope; simp [traceList, stepEvs]
  | cons n rest =>
    intro scope
    simp [traceList, stepEvs_append, Option.bind,
      traceNode_stepEvs n scope, traceList_stepEvs rest scope]

theorem traceAttrs_stepEvs (l : AttrList) : ∀ scope : Scope,
    stepEvs (traceAttrs scope l) scope.length = some scope.length := by
  cases l with
  | nil => intro scope; simp [traceAttrs, stepEvs]
  | cons k v rest =>
    intro scope
    simp [traceAttrs, stepEvs_append, Option.bind,
      traceList_stepEvs v scope, traceAttrs_stepEvs rest scope]

theorem traceHash_stepEvs (l : HashList) : ∀ scope : Scope,
    stepEvs (traceHash scope l) scope.length = some scope.length := by
  cases l with
  | nil => intro scope; simp [traceHash, stepEvs]
  | cons k v rest =>
    intro scope
    simp [traceHash, stepEvs_append, Option.bind,
      traceNode_stepEvs v scope, traceHash_stepEvs rest scope]

end

mutual

theorem traceNode_tokens (n : TemplateNode) : ∀ scope : Scope,
    tokensOfTrace (traceNode scope n) = visitNode scope n := by
  cases n with
  | text => intro scope; simp [traceNode, visitNode, tokensOfTrace]
  | comment => intro scope; simp [traceNode, visitNode, tokensOfTrace]
  | element tagPath attrs mods bps children =>
    intro scope
    by_cases hb : bps.isEmpty <;>
      simp [traceNode, visitNode, tokensOfTrace, hb, pushScope,
        tokensOfTrace_append, tokensOfTrace_emitEvs,
        traceAttrs_tokens attrs scope, traceList_tokens mods scope,
        traceList_tokens children scope, traceList_tokens children (bps :: scope)]
  | mustache p params hash =>
    intro scope
    simp [traceNode, visitNode, tokensOfTrace, tokensOfTrace_append, tokensOfTrace_emitEvs,
      traceList_tokens params scope, traceHash_tokens hash scope]
  | subexpr p params hash =>
    intro scope
    simp [traceNode, visitNode, tokensOfTrace, tokensOfTrace_append, tokensOfTrace_emitEvs,
      traceList_tokens params scope, traceHash_tokens hash scope]
  | block p params hash pps pbody ips ibody =>
    intro scope
    by_cases hp : pps.isEmpty <;> by_cases hi : ips.isEmpty <;>
      simp [traceNode, visitNode, tokensOfTrace, hp, hi, pushScope,
        tokensOfTrace_append, tokensOfTrace_emitEvs,
        traceList_tokens params scope, traceHash_tokens hash scope,
        traceList_tokens pbody scope, traceList_tokens pbody (pps :: scope),
        traceList_tokens ibody scope, traceList_tokens ibody (ips :: scope)]

theorem traceList_tokens (l : NodeList) : ∀ scope : Scope,
    tokensOfTrace (traceList scope l) = visitList scope l := by
  cases l with
  | nil => intro scope; simp [traceList, visitList, tokensOfTrace]
  | cons n rest =>
    intro scope
    simp [traceList, visitList, tokensOfTrace_append,
      traceNode_tokens n scope, traceList_tokens rest scope]

theorem traceAttrs_tokens (l : AttrList) : ∀ scope : Scope,
    tokensOfTrace (traceAttrs scope l) = visitAttrs scope l := by
  cases l with
  | nil => intro scope; simp [traceAttrs, visitAttrs, tokensOfTrace]
  | cons k v rest =>
    intro scope
    simp [traceAttrs, visitAttrs, tokensOfTrace_append,
      traceList_tokens v scope, traceAttrs_tokens rest scope]

theorem traceHash_tokens (l : HashList) : ∀ scope : Scope,
    tokensOfTrace (traceHash scope l) = visitHash scope l := by
  cases l with
  | nil => intro scope; simp [traceHash, visitHash, tokensOfTrace]
  | cons k v rest =>
    intro scope
    simp [traceHash, visitHash, tokensOfTrace_append,
      traceNode_tokens v scope, traceHash_tokens rest scope]

end

theorem allLeaves_visit : (ast : NodeList) → ∀ scope : Scope,
    allLeaves ast = true → visitList scope ast = []
  | .nil, _, _ => by simp [visitList]
  | .cons n rest, scope, h => by
    cases n with
    | text =>
      have hr : allLeaves rest = true := by simpa [allLeaves] using h
      simp [visitList, visitNode, allLeaves_visit rest scope hr]
    | comment =>
      have hr : allLeaves rest = true := by simpa [allLeaves] using h
      simp [visitList, visitNode, allLeaves_visit rest scope hr]
    | element a b c d e => simp [allLeaves] at h
    | mustache a b c => simp [allLeaves] at h
    | subexpr a b c => simp [allLeaves] at h
    | block a b c d e f g => simp [allLeaves] at h

theorem foldl_append_eq_flatten {α : Type} (l : List (List α)) : ∀ acc : List α,
    l.foldl (fun a b => a ++ b) acc = acc ++ l.flatten := by
  induction l with
  | nil => intro acc; simp
  | cons x rest ih => intro acc; simp [List.foldl, ih, List.flatten]

/-- C1: a name bound by an enclosing block's `as |X|` parameter list makes the
classifier Skip any path whose head segment equals it (case-sensitively), so
no token is emitted for it inside that block's body, while the same literal
name outside the body is still classified and emitted: the shadow templates
evaluate to `["foo"]` and `["foo-bar"]`, and a template using `Bar` before,
inside and after a `<Foo as |Bar|>` block emits `bar` for the outside
occurrences only. -/
theorem scope_shadowing_block_local :
    (∀ (scope : Scope) (ctx : Context) (p : String),
        isBound scope (headSegment ctx p) = true → classify scope ctx p = .skip)
      ∧ extractTokens tplAngleShadow = ["foo"]
      ∧ extractTokens tplCurlyShadow = ["foo-bar"]
      ∧ extractTokens tplShadowOutside = ["bar", "foo", "bar"] := by
  refine ⟨?_, by decide, by decide, by decide⟩
  intro scope ctx p h
  by_cases ha : isArgPath p
  · simp [classify, ha]
  · simp [classify, ha, h]

/-- Witness for C1 at a concrete input: with `Bar` bound by an enclosing
frame, the tag path `Bar` is classified Skip. -/
theorem scope_shadowing_block_local_witness :
    classify [["Bar"]] Context.tagName "Bar" = Classification.skip :=
  scope_shadowing_block_local.1 [["Bar"]] Context.tagName "Bar" (by decide)

/-- C2: a path beginning with `@` is classified Skip in every syntactic
context, the node carrying it contributes no token of its own, and
`<@Foo />` produces no token at all. -/
theorem argument_paths_never_emitted :
    (∀ (scope : Scope) (ctx : Context) (p : String),
        isArgPath p = true → classify scope ctx p = .skip)
      ∧ (∀ (scope : Scope) (n : TemplateNode) (p : String),
          nodePath n = some p → isArgPath p = true → ownTokens scope n = [])
      ∧ extractTokens tplAtFoo = [] := by
  have hskip : ∀ (scope : Scope) (ctx : Context) (p : String),
      isArgPath p = true → classify scope ctx p = .skip := by
    intro scope ctx p h
    simp [classify, h]
  refine ⟨hskip, ?_, by decide⟩
  intro scope n p hn ha
  cases n with
  | text => simp [nodePath] at hn
  | comment => simp [nodePath] at hn
  | element tp a m b c =>
    simp [nodePath] at hn
    subst hn
    simp [ownTokens, hskip scope .tagName tp ha, componentTokens]
  | mustache q pa hs =>
    simp [nodePath] at hn
    subst hn
    simp [ownTokens, hskip scope .curlyPath q ha, invocableTokens]
  | subexpr q pa hs =>
    simp [nodePath] at hn
    subst hn
    simp [ownTokens, hskip scope .curlyPath q ha, invocableTokens]
  | block q pa hs c d e f =>
    simp [nodePath] at hn
    subst hn
    simp [ownTokens, hskip scope .curlyPath q ha, invocableTokens]

/-- Witness for C2 at a concrete input: the tag path `@Foo` is classified
Skip. -/
theorem argument_paths_never_emitted_witness :
    classify [] Context.tagName "@Foo" = Classification.skip :=
  argument_paths_never_emitted.1 [] Context.tagName "@Foo" (by decide)

/-- C3: every tag path classified as a Component is normalized by splitting
the raw path on `::`, dasherizing each segment independently, and joining
the segments with `/`; in particular `<MyComponent />` gives
`["my-component"]` and `<MyComponent::Bar />` gives `["my-component/bar"]`. -/
theorem tag_component_dasherized :
    (∀ (scope : Scope) (p s : String),
        classify scope .tagName p = .component s →
        s.data
          = joinSlash ((splitOnColons p.data).map
              (fun seg => (dasherize (String.mk seg)).data)))
      ∧ extractTokens tplMyComponent = ["my-component"]
      ∧ extractTokens tplMyComponentBar = ["my-component/bar"] := by
  refine ⟨?_, by decide, by decide⟩
  intro scope p s h
  by_cases ha : isArgPath p
  · simp [classify, ha] at h
  · by_cases hb : isBound scope (headSegment .tagName p)
    · simp [classify, ha, hb] at h
    · by_cases hl : firstCharLower p
      · simp [classify, ha, hb, hl] at h
      · simp [classify, ha, hb, hl] at h
        subst h
        simp [normalizeAngleTagPath, dasherize]

/-- Witness for C3 at a concrete input: the component token for the tag
path `MyComponent::Bar` is its dasherized, slash-joined normalization. -/
theorem tag_component_dasherized_witness :
    ("my-component/bar" : String).data
      = joinSlash ((splitOnColons ("MyComponent::Bar" : String).data).map
          (fun seg => (dasherize (String.mk seg)).data)) :=
  tag_component_dasherized.1 [] "MyComponent::Bar" "my-component/bar" (by decide)

/-- C4: when an invocation's path is classified as an invocable, the token
sequence of the node is the invocation's own token followed by the tokens of
its params and hash values, so the outer invocation's token precedes every
token of its nested sub-expressions; the composed-helpers template emits
`my-component/foo`, then `format-name`, then `to-uppercase`. -/
theorem subexpression_outer_before_inner :
    (∀ (scope : Scope) (p s : String) (params : NodeList) (hash : HashList),
        classify scope .curlyPath p = .invocable s →
        visitNode scope (.subexpr p params hash)
            = s :: (visitList scope params ++ visitHash scope hash)
          ∧ visitNode scope (.mustache p params hash)
            = s :: (visitList scope params ++ visitHash scope hash))
      ∧ extractTokens tplComposition
          = ["my-component/foo", "format-name", "to-uppercase"] := by
  refine ⟨?_, by decide⟩
  intro scope p s params hash h
  constructor <;> simp [visitNode, h, invocableTokens]

/-- Witness for C4 at a concrete input: a sub-expression with path
`format-name` puts its own token first. -/
theorem subexpression_outer_before_inner_witness :
    visitNode [] (.subexpr "format-name" .nil .nil)
        = "format-name" :: (visitList [] .nil ++ visitHash [] .nil)
      ∧ visitNode [] (.mustache "format-name" .nil .nil)
        = "format-name" :: (visitList [] .nil ++ visitHash [] .nil) :=
  subexpression_outer_before_inner.1 [] "format-name" "format-name" .nil .nil (by decide)

/-- C5: every node contributes at most one token of its own — in particular
a block statement's opening and closing delimiters are one AST node whose
own contribution is at most one token, placed before the tokens of its
contents — and both block templates produce exactly
`["my-component/foo"]`. -/
theorem block_single_emission :
    (∀ (scope : Scope) (n : TemplateNode),
        (ownTokens scope n).length ≤ 1
          ∧ ∃ rest, visitNode scope n = ownTokens scope n ++ rest)
      ∧ extractTokens tplCurlyBlock = ["my-component/foo"]
      ∧ extractTokens tplAngleBlock = ["my-component/foo"] := by
  refine ⟨?_, by decide, by decide⟩
  intro scope n
  cases n with
  | text =>
    exact ⟨by simp [ownTokens], ⟨[], by simp [visitNode, ownTokens]⟩⟩
  | comment =>
    exact ⟨by simp [ownTokens], ⟨[], by simp [visitNode, ownTokens]⟩⟩
  | element tp a m b c =>
    refine ⟨?_, ⟨visitAttrs scope a ++ (visitList scope m
      ++ visitList (pushScope b scope) c), ?_⟩⟩
    · cases hc : classify scope .tagName tp <;> simp [ownTokens, hc, componentTokens]
    · simp [visitNode, ownTokens, List.append_assoc]
  | mustache q pa hs =>
    refine ⟨?_, ⟨visitList scope pa ++ visitHash scope hs, ?_⟩⟩
    · cases hc : classify scope .curlyPath q <;> simp [ownTokens, hc, invocableTokens]
    · simp [visitNode, ownTokens, List.append_assoc]
  | subexpr q pa hs =>
    refine ⟨?_, ⟨visitList scope pa ++ visitHash scope hs, ?_⟩⟩
    · cases hc : classify scope .curlyPath q <;> simp [ownTokens, hc, invocableTokens]
    · simp [visitNode, ownTokens, List.append_assoc]
  | block q pa hs c d e f =>
    refine ⟨?_, ⟨visitList scope pa ++ (visitHash scope hs
      ++ (visitList (pushScope c scope) d ++ visitList (pushScope e scope) f)), ?_⟩⟩
    · cases hc : classify scope .curlyPath q <;> simp [ownTokens, hc, invocableTokens]
    · simp [visitNode, ownTokens, List.append_assoc]

/-- C6: an element whose tag path starts with a lowercase character emits no
token for the tag itself — the classifier Skips it — but its attributes,
modifiers and children are still walked; `<input {{autocomplete}} >` gives
`["autocomplete"]` while `<MyComponent {{autocomplete}} />` gives
`["my-component", "autocomplete"]`. -/
theorem lowercase_tag_skip_continues_traversal :
    (∀ (scope : Scope) (p : String),
        firstCharLower p = true → classify scope .tagName p = .skip)
      ∧ (∀ (scope : Scope) (tagPath : String) (attrs : AttrList) (mods : NodeList)
          (bps : List String) (children : NodeList),
          firstCharLower tagPath = true →
          visitNode scope (.element tagPath attrs mods bps children)
            = visitAttrs scope attrs ++ visitList scope mods
                ++ visitList (pushScope bps scope) children)
      ∧ extractTokens tplInput = ["autocomplete"]
      ∧ extractTokens tplMyComponentModifier = ["my-component", "autocomplete"] := by
  have hskip : ∀ (scope : Scope) (p : String),
      firstCharLower p = true → classify scope .tagName p = .skip := by
    intro scope p h
    by_cases ha : isArgPath p
    · simp [classify, ha]
    · by_cases hb : isBound scope (headSegment .tagName p)
      · simp [classify, ha, hb]
      · simp [classify, ha, hb, h]
  refine ⟨hskip, ?_, by decide, by decide⟩
  intro scope tagPath attrs mods bps children h
  simp [visitNode, hskip scope tagPath h, componentTokens]

/-- Witness for C6 at a concrete input: the tag path `input` is classified
Skip. -/
theorem lowercase_tag_skip_continues_traversal_witness :
    classify [] Context.tagName "input" = Classification.skip :=
  lowercase_tag_skip_continues_traversal.1 [] "input" (by decide)

/-- C7: over any document the instrumented walk's push/pop sequence is
well-nested — every push is matched by exactly one later pop, no pop is
unmatched, and the recorded depth at every visited node equals the number
of enclosing block bodies with declared parameters (the run ends back at
depth zero) — and the instrumented walk emits exactly the tokens of the
extraction, so it instruments the very same traversal. -/
theorem scope_stack_well_nested :
    ∀ ns : NodeList,
      stepEvs (traceList [] ns) 0 = some 0
        ∧ tokensOfTrace (traceList [] ns) = extractTokens ns := by
  intro ns
  constructor
  · simpa using traceList_stepEvs ns []
  · simpa [extractTokens] using traceList_tokens ns []

/-- C8: when the upstream parse fails, extraction surfaces the parser's
error — with its position information — unchanged and produces no token
list; a parse consisting only of contentless leaves (empty or
whitespace-only input) succeeds with the empty token sequence. -/
theorem parse_failure_all_or_nothing :
    (∀ e : TemplateSyntaxError,
        extractTokensFromTemplate (.error e) = .error e)
      ∧ (∀ ast : NodeList, allLeaves ast = true →
          extractTokensFromTemplate (.ok ast) = .ok []) := by
  refine ⟨fun e => rfl, ?_⟩
  intro ast h
  simp [extractTokensFromTemplate, extractTokens, allLeaves_visit ast [] h]

/-- Witness for C8 at a concrete input: a whitespace-only parse (one text
leaf) extracts the empty token sequence. -/
theorem parse_failure_all_or_nothing_witness :
    extractTokensFromTemplate (.ok (.cons .text .nil)) = .ok [] :=
  parse_failure_all_or_nothing.2 (.cons .text .nil) (by decide)

/-- C9: `Server.addToRegistry` forwards only absolute paths to the
underlying registry: it returns true exactly when at least one supplied
path is absolute; whenever at least one supplied path is absolute a forward
does occur, carrying the given name and kind with exactly the absolute
subsequence of the supplied paths (all of them absolute) and the method
returns true; every forwarded call has that exact shape; and when it
returns false nothing is forwarded and the registry is untouched. -/
theorem addToRegistry_filters_relative_paths :
    ∀ (name kind : String) (fullPath : PathArg),
      ((serverAddToRegistry name kind fullPath).1 = true
          ↔ ∃ p ∈ rawPathsOf fullPath, isAbsolute p = true)
        ∧ ((∃ p ∈ rawPathsOf fullPath, isAbsolute p = true) →
            (serverAddToRegistry name kind fullPath).2
                = some ⟨name, kind, (rawPathsOf fullPath).filter isAbsolute⟩
              ∧ (serverAddToRegistry name kind fullPath).1 = true
              ∧ ∀ p ∈ (rawPathsOf fullPath).filter isAbsolute, isAbsolute p = true)
        ∧ (∀ c : RegistryCall,
            (serverAddToRegistry name kind fullPath).2 = some c →
            c.name = name ∧ c.kind = kind
              ∧ c.paths = (rawPathsOf fullPath).filter isAbsolute
              ∧ ∀ p ∈ c.paths, isAbsolute p = true)
        ∧ ((serverAddToRegistry name kind fullPath).1 = false
            → (serverAddToRegistry name kind fullPath).2 = none) := by
  intro name kind fullPath
  by_cases h : ((rawPathsOf fullPath).filter isAbsolute).length = 0
  · have hnil : (rawPathsOf fullPath).filter isAbsolute = [] :=
      List.length_eq_zero.mp h
    have hres : serverAddToRegistry name kind fullPath = (false, none) := by
      simp [serverAddToRegistry, h]
    refine ⟨?_, ?_, ?_, ?_⟩
    · constructor
      · intro ht
        rw [hres] at ht
        simp at ht
      · rintro ⟨p, hp, habs⟩
        have hmem : p ∈ (rawPathsOf fullPath).filter isAbsolute :=
          List.mem_filter.mpr ⟨hp, habs⟩
        rw [hnil] at hmem
        simp at hmem
    · rintro ⟨p, hp, habs⟩
      have hmem : p ∈ (rawPathsOf fullPath).filter isAbsolute :=
        List.mem_filter.mpr ⟨hp, habs⟩
      rw [hnil] at hmem
      simp at hmem
    · intro c hc
      rw [hres] at hc
      simp at hc
    · intro _
      rw [hres]
  · have hres : serverAddToRegistry name kind fullPath
        = (true, some ⟨name, kind, (rawPathsOf fullPath).filter isAbsolute⟩) := by
      simp [serverAddToRegistry, h]
    refine ⟨?_, ?_, ?_, ?_⟩
    · rw [hres]
      simp only [true_iff]
      have hpos : 0 < ((rawPathsOf fullPath).filter isAbsolute).length :=
        Nat.pos_of_ne_zero h
      obtain ⟨p, hp⟩ := List.exists_mem_of_length_pos hpos
      obtain ⟨hmem, habs⟩ := List.mem_filter.mp hp
      exact ⟨p, hmem, habs⟩
    · intro _
      refine ⟨by rw [hres], by rw [hres], ?_⟩
      intro p hp
      exact (List.mem_filter.mp hp).2
    · intro c hc
      rw [hres] at hc
      simp at hc
      subst hc
      refine ⟨rfl, rfl, rfl, ?_⟩
      intro p hp
      exact (List.mem_filter.mp hp).2
    · intro hfalse
      rw [hres] at hfalse
      simp at hfalse

/-- Witness for C9 at a concrete input: with one absolute and one relative
path supplied, a forward to the underlying registry occurs, carrying
exactly the absolute path. -/
theorem addToRegistry_filters_relative_paths_witness :
    (serverAddToRegistry "button" "component"
        (.many ["/app/components/button.ts", "relative.ts"])).2
      = some ⟨"button", "component", ["/app/components/button.ts"]⟩ :=
  ((addToRegistry_filters_relative_paths "button" "component"
      (.many ["/app/components/button.ts", "relative.ts"])).2.1
    ⟨"/app/components/button.ts", by decide, by decide⟩).1

/-- C10: `Server.onDocumentSymbol` degrades to an empty result with no file
read when the URI has no file path or when no registered provider handles
the file's extension; otherwise it reads the file exactly once and returns
the concatenation, in provider order, of the matching providers' results on
the file content. -/
theorem onDocumentSymbol_degrades_without_io :
    ∀ (σ : Type) (u2f : String → Option String) (rf : String → String)
      (provs : List (DocSymbolProvider σ)) (uri : String),
      (u2f uri = none → onDocumentSymbol σ u2f rf provs uri = ([], []))
        ∧ (∀ fp, u2f uri = some fp →
            provs.filter (fun pr => pr.extensions.contains (extname fp)) = [] →
            onDocumentSymbol σ u2f rf provs uri = ([], []))
        ∧ (∀ fp, u2f uri = some fp →
            provs.filter (fun pr => pr.extensions.contains (extname fp)) ≠ [] →
            onDocumentSymbol σ u2f rf provs uri
              = (((provs.filter (fun pr => pr.extensions.contains (extname fp))).map
                    (fun pr => pr.process (rf fp))).flatten, [fp])) := by
  intro σ u2f rf provs uri
  refine ⟨?_, ?_, ?_⟩
  · intro h
    simp [onDocumentSymbol, h]
  · intro fp h hf
    simp only [onDocumentSymbol, h]
    rw [if_pos (show (provs.filter
        (fun pr => pr.extensions.contains (extname fp))).length = 0 by rw [hf]; rfl)]
  · intro fp h hf
    simp only [onDocumentSymbol, h]
    rw [if_neg (show ¬ (provs.filter
        (fun pr => pr.extensions.contains (extname fp))).length = 0 by
      simpa [List.length_eq_zero] using hf)]
    rw [foldl_append_eq_flatten]
    simp

/-- Witness for C10 at a concrete input: one provider handling `.js`, a URI
resolving to `a.js`, and a constant file read — the provider's symbols are
returned and exactly one read of `a.js` is performed. -/
theorem onDocumentSymbol_degrades_without_io_witness :
    onDocumentSymbol Nat (fun _ => some "a.js") (fun _ => "content")
        [⟨[".js"], fun _ => [7]⟩] "file-uri" = ([7], ["a.js"]) :=
  (onDocumentSymbol_degrades_without_io Nat (fun _ => some "a.js") (fun _ => "content")
      [⟨[".js"], fun _ => [7]⟩] "file-uri").2.2 "a.js" rfl
    (by exact List.cons_ne_nil _ _)
